import Mathlib

/-!
Verification of the chrysalis-sync CRDT and gossip layer
(src/rust/chrysalis-sync/src/crdt.rs and gossip.rs).

Modelling conventions:
* Rust HashMap/HashSet are modelled as association lists (first occurrence
  wins on lookup, as in a map with unique keys) and Finset respectively.
* u64 counters are modelled as Nat (no arithmetic close to overflow occurs:
  the code only increments and takes maxima).
* f64 timestamps are modelled as Int: the code only ever compares
  timestamps with greater-than and equality, so any linear order is a
  faithful model of the (non-NaN) float comparisons.
* serde_json payload values are modelled as opaque strings.
* std::time::Instant is modelled as a Nat parameter passed to the
  operations that read the current time.
-/

set_option autoImplicit false

universe u

/-- First-occurrence lookup in an association list, as in a hash map
with unique keys. -/
def lookupKey {β : Type u} : List (String × β) → String → Option β
  | [], _ => none
  | p :: rest, k => if p.1 = k then some p.2 else lookupKey rest k

/-- Hash-map insert: replace the value at the first occurrence of the key,
or append a fresh entry. -/
def replaceOrAppend {β : Type u} : List (String × β) → String → β → List (String × β)
  | [], k, v => [(k, v)]
  | p :: rest, k, v => if p.1 = k then (k, v) :: rest else p :: replaceOrAppend rest k v

/-- Hash-map remove: drop the first occurrence of the key. -/
def removeKey {β : Type u} : List (String × β) → String → List (String × β)
  | [], _ => []
  | p :: rest, k => if p.1 = k then rest else p :: removeKey rest k

/-- Keys of an association list. -/
def keysOf {β : Type u} (l : List (String × β)) : List String := l.map Prod.fst

-- =============================================================================
-- Vector clock (crdt.rs, struct VectorClock)
-- =============================================================================

/-- Vector clock for causal ordering of events: a map from instance id to a
counter, modelled as an association list standing for the Rust HashMap. -/
structure VectorClock where
  entries : List (String × Nat)
deriving DecidableEq

namespace VectorClock

def new : VectorClock := ⟨[]⟩

/-- Lookup of the raw map entry for an instance (HashMap::get). -/
def find (vc : VectorClock) (id : String) : Option Nat := lookupKey vc.entries id

/-- Clock value for an instance, zero when absent (VectorClock::get). -/
def get (vc : VectorClock) (id : String) : Nat := (vc.find id).getD 0

def keys (vc : VectorClock) : List String := keysOf vc.entries

/-- Well-formedness: no duplicate keys, as holds for every Rust HashMap. -/
def WF (vc : VectorClock) : Prop := vc.keys.Nodup

instance (vc : VectorClock) : Decidable vc.WF := by unfold WF; infer_instance

/-- VectorClock::set — insert or overwrite an entry. -/
def set (vc : VectorClock) (id : String) (v : Nat) : VectorClock :=
  ⟨replaceOrAppend vc.entries id v⟩

/-- VectorClock::tick — increment the entry for an instance (or_insert(0) then +1). -/
def tick (vc : VectorClock) (id : String) : VectorClock × Nat :=
  (vc.set id (vc.get id + 1), vc.get id + 1)

/-- One step of VectorClock::merge: the hash-map entry API sequence
entry(id).or_insert(0) followed by taking the maximum with the incoming value. -/
def upsertMax : List (String × Nat) → String → Nat → List (String × Nat)
  | [], id, v => [(id, v)]
  | p :: rest, id, v =>
    if p.1 = id then (id, max p.2 v) :: rest else p :: upsertMax rest id v

/-- The loop body of VectorClock::merge over the other clock's entries. -/
def mergeList (a : List (String × Nat)) : List (String × Nat) → List (String × Nat)
  | [] => a
  | p :: rest => mergeList (upsertMax a p.1 p.2) rest

/-- VectorClock::merge (element-wise max), returning the mutated clock. -/
def merge (vc other : VectorClock) : VectorClock :=
  ⟨mergeList vc.entries other.entries⟩

/-- VectorClock::merged — merge on a copy. -/
def merged (vc other : VectorClock) : VectorClock := vc.merge other

/-- VectorClock::happened_before, translated loop by loop: false as soon as
one own entry exceeds the other clock; otherwise true iff some own entry is
strictly below, or the other clock has a positive entry at a key absent here. -/
def happened_before (a b : VectorClock) : Bool :=
  a.entries.all (fun p => decide (p.2 ≤ b.get p.1)) &&
  (a.entries.any (fun p => decide (p.2 < b.get p.1)) ||
   b.entries.any (fun p => (a.find p.1).isNone && decide (0 < p.2)))

/-- VectorClock::concurrent. -/
def concurrent (a b : VectorClock) : Bool :=
  !(a.happened_before b) && !(b.happened_before a)

/-- Equality of the underlying maps, as Rust HashMap equality would compare
them: the same keys bound to the same values. -/
def EqMap (a b : VectorClock) : Prop := ∀ k, a.find k = b.find k

/-- Pointwise domination: every entry of the left clock is at most the
corresponding entry of the right clock. -/
def Dominates (a b : VectorClock) : Prop := ∀ k, a.get k ≤ b.get k

/-- Executable domination check over the left clock's entries. -/
def dominatesB (a b : VectorClock) : Bool :=
  a.entries.all (fun p => decide (p.2 ≤ b.get p.1))

end VectorClock

-- =============================================================================
-- Experience events and the append-only log (crdt.rs)
-- =============================================================================

inductive ExperienceEventType
  | MemoryCreated
  | MemoryUpdated
  | PatternDiscovered
  | SkillLearned
  | EvaluationCompleted
  | CollaborationEvent
  | StateTransition
  | MetricUpdated
deriving DecidableEq

/-- An experience event (struct ExperienceEvent). The f64 timestamp is
modelled as Int and the JSON payload as an opaque string; neither field is
inspected by any of the operations verified here. -/
structure ExperienceEvent where
  id : String
  instance_id : String
  event_type : ExperienceEventType
  timestamp : Int
  payload : String
  vector_clock : VectorClock
deriving DecidableEq

/-- The comparator ExperienceLog::merge passes to sort_by: causal order
when comparable, id order otherwise. -/
def eventCmp (a b : ExperienceEvent) : Ordering :=
  if a.vector_clock.happened_before b.vector_clock then Ordering.lt
  else if b.vector_clock.happened_before a.vector_clock then Ordering.gt
  else compare a.id b.id

/-- Insert x into the reversed already-sorted prefix: x moves left past every
element strictly Greater than it and stops at the first that is not, exactly
the shift-while-greater insertion step of the Rust standard library sort. -/
def revInsert {α : Type u} (cmp : α → α → Ordering) : List α → α → List α
  | [], x => [x]
  | y :: ys, x => if cmp y x = Ordering.gt then y :: revInsert cmp ys x else x :: y :: ys

/-- Stable insertion sort in the shift-while-greater formulation. This is the
sort slice::sort_by performs on short slices (its fallback for small lengths),
and for any comparator that is a strict weak order it agrees with every stable
sort, hence with slice::sort_by at all lengths. -/
def sortByRust {α : Type u} (cmp : α → α → Ordering) (l : List α) : List α :=
  (l.foldl (revInsert cmp) []).reverse

/-- Append-only log of experience events (struct ExperienceLog). The HashSet
of seen ids is modelled as a Finset. -/
structure ExperienceLog where
  events : List ExperienceEvent
  seen_ids : Finset String
  clock : VectorClock
deriving DecidableEq

namespace ExperienceLog

def new : ExperienceLog := ⟨[], ∅, VectorClock.new⟩

/-- ExperienceLog::append, returning the mutated log and the bool result. -/
def append (log : ExperienceLog) (e : ExperienceEvent) : ExperienceLog × Bool :=
  if e.id ∈ log.seen_ids then (log, false)
  else
    ({ events := log.events ++ [e],
       seen_ids := insert e.id log.seen_ids,
       clock := log.clock.merge e.vector_clock }, true)

/-- ExperienceLog::events_since. -/
def events_since (log : ExperienceLog) (since : VectorClock) : List ExperienceEvent :=
  log.events.filter (fun e => since.happened_before e.vector_clock)

/-- The import loop of ExperienceLog::merge: take each of the other log's
events whose id has not been seen yet, extending the seen set as it goes. -/
def importStep (acc : List ExperienceEvent × Finset String) (e : ExperienceEvent) :
    List ExperienceEvent × Finset String :=
  if e.id ∈ acc.2 then acc else (acc.1 ++ [e], insert e.id acc.2)

/-- ExperienceLog::merge: import unseen events, merge the aggregate clocks,
then sort the whole sequence with eventCmp. -/
def merge (log other : ExperienceLog) : ExperienceLog :=
  let imported := other.events.foldl importStep (log.events, log.seen_ids)
  { events := sortByRust eventCmp imported.1,
    seen_ids := imported.2,
    clock := log.clock.merge other.clock }

/-- ExperienceLog::len. -/
def len (log : ExperienceLog) : Nat := log.events.length

end ExperienceLog

-- =============================================================================
-- Last-writer-wins map (crdt.rs)
-- =============================================================================

/-- Entry in the LWW map (struct LWWEntry<T>); the f64 timestamp is modelled
as Int, which the code only compares. -/
structure LWWEntry (T : Type u) where
  value : T
  timestamp : Int
  writer : String
deriving DecidableEq

/-- Last-writer-wins map (struct LWWMap<T>). -/
structure LWWMap (T : Type u) where
  entries : List (String × LWWEntry T)
deriving DecidableEq

namespace LWWMap

def new {T : Type u} : LWWMap T := ⟨[]⟩

/-- LWWMap::set, branch for branch: reject when the existing entry has a
strictly newer timestamp, or the same timestamp and a writer id at least as
large; otherwise insert. Rust's existing.writer >= writer on the derived
total String order is exactly compare existing.writer writer ≠ lt. -/
def set {T : Type u} (m : LWWMap T) (key : String) (value : T) (timestamp : Int)
    (writer : String) : LWWMap T :=
  match lookupKey m.entries key with
  | some existing =>
    if existing.timestamp > timestamp then m
    else if existing.timestamp = timestamp ∧ compare existing.writer writer ≠ Ordering.lt
      then m
    else ⟨replaceOrAppend m.entries key ⟨value, timestamp, writer⟩⟩
  | none => ⟨replaceOrAppend m.entries key ⟨value, timestamp, writer⟩⟩

/-- LWWMap::get. -/
def get {T : Type u} (m : LWWMap T) (key : String) : Option T :=
  (lookupKey m.entries key).map LWWEntry.value

/-- LWWMap::get_entry. -/
def get_entry {T : Type u} (m : LWWMap T) (key : String) : Option (LWWEntry T) :=
  lookupKey m.entries key

/-- LWWMap::remove: a destructive delete; the timestamp argument is unused
in the source (named with a leading underscore there). -/
def remove {T : Type u} (m : LWWMap T) (key : String) (_timestamp : Int) : LWWMap T :=
  ⟨removeKey m.entries key⟩

/-- The per-key body of LWWMap::merge. Rust's other.writer > self.writer on
the derived total String order is exactly compare self.writer other.writer
= lt. -/
def mergeStep {T : Type u} (acc : List (String × LWWEntry T)) (kv : String × LWWEntry T) :
    List (String × LWWEntry T) :=
  match lookupKey acc kv.1 with
  | some self_entry =>
    if kv.2.timestamp > self_entry.timestamp ∨
        (kv.2.timestamp = self_entry.timestamp ∧
          compare self_entry.writer kv.2.writer = Ordering.lt)
    then replaceOrAppend acc kv.1 kv.2
    else acc
  | none => replaceOrAppend acc kv.1 kv.2

/-- LWWMap::merge. -/
def merge {T : Type u} (m other : LWWMap T) : LWWMap T :=
  ⟨other.entries.foldl mergeStep m.entries⟩

/-- A map holding a single entry; equal to new.set key value timestamp writer. -/
def singleton {T : Type u} (key : String) (value : T) (timestamp : Int)
    (writer : String) : LWWMap T :=
  ⟨[(key, ⟨value, timestamp, writer⟩)]⟩

end LWWMap

-- =============================================================================
-- Delta state and sync state (crdt.rs)
-- =============================================================================

/-- Delta state for incremental synchronization (struct DeltaState); the
state_updates HashMap<String, Value> is modelled as an association list of
opaque string values. -/
structure DeltaState where
  from_clock : VectorClock
  to_clock : VectorClock
  events : List ExperienceEvent
  state_updates : List (String × String)
deriving DecidableEq

namespace DeltaState

/-- DeltaState::empty. -/
def emptyDelta : DeltaState := ⟨VectorClock.new, VectorClock.new, [], []⟩

/-- DeltaState::is_empty. -/
def is_empty (d : DeltaState) : Bool := d.events.isEmpty && d.state_updates.isEmpty

end DeltaState

/-- Complete synchronization state for an instance (struct SyncState); the
metrics map holds f64 values (modelled Int) and the metadata map JSON values
(modelled String). -/
structure SyncState where
  instance_id : String
  log : ExperienceLog
  metrics : LWWMap Int
  metadata : LWWMap String
  last_sync : Int
deriving DecidableEq

namespace SyncState

def new (instance_id : String) : SyncState :=
  ⟨instance_id, ExperienceLog.new, LWWMap.new, LWWMap.new, 0⟩

/-- SyncState::delta_since: package events_since plus the aggregate clock;
the state_updates component is left empty by the source. -/
def delta_since (s : SyncState) (since : VectorClock) : DeltaState :=
  { from_clock := since,
    to_clock := s.log.clock,
    events := s.log.events_since since,
    state_updates := [] }

/-- SyncState::apply_delta: append each delta event into the log. -/
def apply_delta (s : SyncState) (delta : DeltaState) : SyncState :=
  { s with log := delta.events.foldl (fun l e => (l.append e).1) s.log }

/-- SyncState::merge. -/
def merge (s other : SyncState) : SyncState :=
  { s with
    log := s.log.merge other.log,
    metrics := s.metrics.merge other.metrics,
    metadata := s.metadata.merge other.metadata }

end SyncState

-- =============================================================================
-- Gossip protocol (gossip.rs)
-- =============================================================================

/-- Configuration for the gossip protocol (struct GossipConfig). -/
structure GossipConfig where
  gossip_interval_ms : Nat
  fanout : Nat
  max_events_per_message : Nat
  peer_timeout_ms : Nat
  retry_interval_ms : Nat
deriving DecidableEq

/-- GossipConfig::default. -/
def GossipConfig.default : GossipConfig :=
  ⟨1000, 3, 100, 30000, 10000⟩

/-- State of a peer (struct PeerState); Instant is modelled as a Nat time. -/
structure PeerState where
  peer_id : String
  address : String
  last_seen : Nat
  last_clock : VectorClock
  failed_attempts : Nat
  is_reachable : Bool
deriving DecidableEq

namespace PeerState

/-- PeerState::new, at creation time now. -/
def new (peer_id address : String) (now : Nat) : PeerState :=
  ⟨peer_id, address, now, VectorClock.new, 0, true⟩

/-- PeerState::mark_seen, at time now. -/
def mark_seen (p : PeerState) (now : Nat) : PeerState :=
  { p with last_seen := now, failed_attempts := 0, is_reachable := true }

/-- PeerState::mark_failed. -/
def mark_failed (p : PeerState) : PeerState :=
  let p := { p with failed_attempts := p.failed_attempts + 1 }
  if p.failed_attempts ≥ 3 then { p with is_reachable := false } else p

end PeerState

/-- Information about a peer for membership updates (struct PeerInfo). -/
structure PeerInfo where
  peer_id : String
  address : String
deriving DecidableEq

/-- Gossip messages (enum GossipMessage). -/
inductive GossipMessage
  | Push (sender_id : String) (delta : DeltaState)
  | Pull (sender_id : String) (since_clock : VectorClock)
  | PullResponse (sender_id : String) (delta : DeltaState)
  | Heartbeat (sender_id : String) (clock : VectorClock) (peer_count : Nat)
  | MembershipUpdate (sender_id : String) (joined : List PeerInfo) (left : List String)
deriving DecidableEq

/-- The gossip protocol manager (struct GossipProtocol); the peers HashMap is
an association list and both Instants are Nat times. -/
structure GossipProtocol where
  instance_id : String
  config : GossipConfig
  state : SyncState
  peers : List (String × PeerState)
  pending_messages : List (String × GossipMessage)
  last_gossip : Nat
deriving DecidableEq

namespace GossipProtocol

/-- GossipProtocol::new, at creation time now. -/
def new (instance_id : String) (config : GossipConfig) (now : Nat) : GossipProtocol :=
  ⟨instance_id, config, SyncState.new instance_id, [], [], now⟩

/-- GossipProtocol::add_peer, registering at time now. -/
def add_peer (g : GossipProtocol) (peer_id address : String) (now : Nat) : GossipProtocol :=
  if peer_id ≠ g.instance_id ∧ (lookupKey g.peers peer_id).isNone then
    { g with peers := g.peers ++ [(peer_id, PeerState.new peer_id address now)] }
  else g

/-- GossipProtocol::remove_peer. -/
def remove_peer (g : GossipProtocol) (peer_id : String) : GossipProtocol :=
  { g with peers := removeKey g.peers peer_id }

/-- GossipProtocol::select_gossip_targets: the reachable peers, truncated to
fanout many when there are more than that. -/
def select_gossip_targets (g : GossipProtocol) : List PeerState :=
  let reachable := (g.peers.map Prod.snd).filter (fun p => p.is_reachable)
  if reachable.length ≤ g.config.fanout then reachable
  else reachable.take g.config.fanout

/-- One iteration of the push loop of GossipProtocol::initiate_gossip. -/
def pushStep (g : GossipProtocol) (msgs : List (String × GossipMessage))
    (peer : PeerState) : List (String × GossipMessage) :=
  let delta := g.state.delta_since peer.last_clock
  if !delta.is_empty then
    msgs ++ [(peer.address, GossipMessage.Push g.instance_id delta)]
  else msgs

/-- The push loop of GossipProtocol::initiate_gossip: one Push message per
target whose delta is non-empty. -/
def gossipPushes (g : GossipProtocol) (targets : List PeerState) :
    List (String × GossipMessage) :=
  targets.foldl (pushStep g) []

/-- The heartbeat loop of GossipProtocol::initiate_gossip. -/
def gossipHeartbeats (g : GossipProtocol) : List (String × GossipMessage) :=
  ((g.peers.map Prod.snd).take g.config.fanout).map
    (fun peer =>
      (peer.address,
       GossipMessage.Heartbeat g.instance_id g.state.log.clock g.peers.length))

/-- GossipProtocol::initiate_gossip, at time now: stamps last_gossip and
returns the Push messages followed by the Heartbeat messages. -/
def initiate_gossip (g : GossipProtocol) (now : Nat) :
    GossipProtocol × List (String × GossipMessage) :=
  ({ g with last_gossip := now },
   gossipPushes g g.select_gossip_targets ++ gossipHeartbeats g)

/-- Update the peer record under a given id, if present (peers.get_mut). -/
def updatePeer (peers : List (String × PeerState)) (id : String)
    (f : PeerState → PeerState) : List (String × PeerState) :=
  match lookupKey peers id with
  | some p => replaceOrAppend peers id (f p)
  | none => peers

/-- GossipProtocol::handle_message, at time now, translated case by case. -/
def handle_message (g : GossipProtocol) (now : Nat) (from_address : String) :
    GossipMessage → GossipProtocol × Option GossipMessage
  | GossipMessage.Push _sender_id delta =>
    let g :=
      { g with
        peers := updatePeer g.peers _sender_id
          (fun p => { p.mark_seen now with last_clock := delta.to_clock }) }
    ({ g with state := g.state.apply_delta delta }, none)
  | GossipMessage.Pull sender_id since_clock =>
    let g := { g with peers := updatePeer g.peers sender_id (fun p => p.mark_seen now) }
    (g, some (GossipMessage.PullResponse g.instance_id (g.state.delta_since since_clock)))
  | GossipMessage.PullResponse sender_id delta =>
    let g :=
      { g with
        peers := updatePeer g.peers sender_id
          (fun p => { p.mark_seen now with last_clock := delta.to_clock }) }
    ({ g with state := g.state.apply_delta delta }, none)
  | GossipMessage.Heartbeat sender_id clock _peer_count =>
    if (lookupKey g.peers sender_id).isSome then
      ({ g with
         peers := updatePeer g.peers sender_id
           (fun p => { p.mark_seen now with last_clock := clock }) }, none)
    else
      (g.add_peer sender_id from_address now, none)
  | GossipMessage.MembershipUpdate sender_id joined left =>
    let g := { g with peers := updatePeer g.peers sender_id (fun p => p.mark_seen now) }
    let g := joined.foldl (fun acc info => acc.add_peer info.peer_id info.address now) g
    let g := left.foldl (fun acc peer_id => acc.remove_peer peer_id) g
    (g, none)

end GossipProtocol

-- =============================================================================
-- Claim-level predicates and concrete instances
-- =============================================================================

/-- Executable HashMap equality of two clocks: the same keys bound to the
same values, checked over the keys of both. -/
def vcEqB (a b : VectorClock) : Bool :=
  (keysOf a.entries ++ keysOf b.entries).all (fun k => a.find k == b.find k)

/-- Modelled from the spec's words for comparison (claim C3): the events
whose clock is NOT causally-before-or-equal to the given clock. -/
def events_since_claim (log : ExperienceLog) (c : VectorClock) : List ExperienceEvent :=
  log.events.filter
    (fun e => !(e.vector_clock.happened_before c || vcEqB e.vector_clock c))

/-- The order claim C1 makes about adjacent-or-later pairs of the merged
sequence: a pair (a, b) with a placed before b must not invert causal order,
and concurrent pairs must be in lexicographic id order. -/
def claimPairOk (a b : ExperienceEvent) : Bool :=
  !(b.vector_clock.happened_before a.vector_clock) &&
  (!(a.vector_clock.concurrent b.vector_clock) ||
    decide (compare a.id b.id ≠ Ordering.gt))

/-- A sequence ordered as claim C1 demands: every earlier element is
claimPairOk with every later element. -/
def claimOrderedB : List ExperienceEvent → Bool
  | [] => true
  | a :: rest => rest.all (claimPairOk a) && claimOrderedB rest

namespace ExperienceLog

/-- The aggregate-clock invariant of claim C5: the log clock dominates the
clock of every stored event. -/
def LogInv (l : ExperienceLog) : Prop :=
  ∀ e ∈ l.events, VectorClock.Dominates e.vector_clock l.clock

/-- Executable strengthening of LogInv: every stored event has a well-formed
clock dominated by the aggregate clock. -/
def logOkB (l : ExperienceLog) : Bool :=
  l.events.all (fun e =>
    decide e.vector_clock.WF && VectorClock.dominatesB e.vector_clock l.clock)

/-- Logs reachable from the empty log by append and merge. -/
inductive Reachable : ExperienceLog → Prop
  | base : Reachable ExperienceLog.new
  | append (l : ExperienceLog) (e : ExperienceEvent) :
      Reachable l → Reachable (l.append e).1
  | merge (l₁ l₂ : ExperienceLog) :
      Reachable l₁ → Reachable l₂ → Reachable (l₁.merge l₂)

end ExperienceLog

/-- Three events whose comparator graph is cyclic: c1e1 causally precedes
c1e2, while the id tie-breaks force c1e2 before c1e3 and c1e3 before c1e1. -/
def c1e1 : ExperienceEvent :=
  ⟨"z", "A", ExperienceEventType.MemoryCreated, 0, "", ⟨[("A", 1)]⟩⟩

def c1e2 : ExperienceEvent :=
  ⟨"a", "A", ExperienceEventType.MemoryCreated, 0, "", ⟨[("A", 2)]⟩⟩

def c1e3 : ExperienceEvent :=
  ⟨"m", "B", ExperienceEventType.MemoryCreated, 0, "", ⟨[("B", 1)]⟩⟩

/-- A log holding c1e1 then c1e2, built by append from the empty log. -/
def c1log1 : ExperienceLog := ((ExperienceLog.new.append c1e1).1.append c1e2).1

/-- A log holding c1e3, built by append from the empty log. -/
def c1log2 : ExperienceLog := (ExperienceLog.new.append c1e3).1

/-- An event concurrent with the clock {A:1} used for claim C3. -/
def c3e : ExperienceEvent :=
  ⟨"e", "B", ExperienceEventType.MemoryCreated, 0, "", ⟨[("B", 1)]⟩⟩

def c3log : ExperienceLog := (ExperienceLog.new.append c3e).1

def c3since : VectorClock := ⟨[("A", 1)]⟩

/-- A one-entry LWW map used for claim C8: merging a stale copy of this map
back in resurrects the removed key. -/
def c8map : LWWMap String := LWWMap.singleton "k" "old" 1 "w1"

/-- Concrete clocks for witnesses. -/
def w2a : VectorClock := ⟨[("A", 3), ("B", 1)]⟩

def w2b : VectorClock := ⟨[("A", 1), ("C", 4)]⟩

def w2c : VectorClock := ⟨[("B", 7)]⟩

/-- Concrete gossip state for the claim C7 witness: one reachable peer whose
recorded clock equals the local aggregate clock. -/
def c7peer : PeerState := ⟨"B", "addr:1", 0, ⟨[("A", 1)]⟩, 0, true⟩

def c7event : ExperienceEvent :=
  ⟨"x", "A", ExperienceEventType.MemoryCreated, 0, "", ⟨[("A", 1)]⟩⟩

def c7state : SyncState :=
  ⟨"A", (ExperienceLog.new.append c7event).1, LWWMap.new, LWWMap.new, 0⟩

def c7g : GossipProtocol :=
  ⟨"A", GossipConfig.default, c7state, [("B", c7peer)], [], 0⟩

/-- Concrete gossip state for the claim C9 witness: two known peers. -/
def c9peerB : PeerState := ⟨"B", "addr:1", 0, ⟨[("B", 2)]⟩, 1, true⟩

def c9peerC : PeerState := ⟨"C", "addr:2", 0, ⟨[("C", 5)]⟩, 2, false⟩

def c9g : GossipProtocol :=
  ⟨"A", GossipConfig.default, c7state, [("B", c9peerB), ("C", c9peerC)], [], 0⟩

-- =============================================================================
-- Helper lemmas
-- =============================================================================

theorem lookupKey_replaceOrAppend {β : Type u} (l : List (String × β)) (k k' : String) (v : β) :
    lookupKey (replaceOrAppend l k v) k' = if k = k' then some v else lookupKey l k' := by
  induction l with
  | nil =>
    by_cases h : k = k' <;> simp [replaceOrAppend, lookupKey, h]
  | cons p rest ih =>
    by_cases hp : p.1 = k
    · subst hp
      by_cases h : p.1 = k' <;> simp [replaceOrAppend, lookupKey, h]
    · simp only [replaceOrAppend, hp, if_false]
      by_cases h : p.1 = k'
      · have hkk' : ¬ k = k' := fun he => hp (he ▸ h)
        simp [lookupKey, h, hkk']
      · simp [lookupKey, h, ih]

theorem lookupKey_isSome_iff_mem_keys {β : Type u} (l : List (String × β)) (k : String) :
    (lookupKey l k).isSome ↔ k ∈ keysOf l := by
  induction l with
  | nil => simp [lookupKey, keysOf]
  | cons p rest ih =>
    by_cases h : p.1 = k
    · simp [lookupKey, keysOf, h]
    · simp [lookupKey, keysOf, h, Ne.symm h] at ih ⊢
      exact ih

theorem lookupKey_eq_none_of_not_mem {β : Type u} (l : List (String × β)) (k : String)
    (h : k ∉ keysOf l) : lookupKey l k = none := by
  rcases he : lookupKey l k with _ | v
  · rfl
  · exact absurd ((lookupKey_isSome_iff_mem_keys l k).1 (by simp [he])) h

theorem keysOf_replaceOrAppend {β : Type u} (l : List (String × β)) (k : String) (v : β) :
    keysOf (replaceOrAppend l k v) = if k ∈ keysOf l then keysOf l else keysOf l ++ [k] := by
  induction l with
  | nil => simp [replaceOrAppend, keysOf]
  | cons p rest ih =>
    by_cases h : p.1 = k
    · simp [replaceOrAppend, keysOf, h]
    · simp only [replaceOrAppend, h, if_false, keysOf, List.map_cons] at ih ⊢
      rw [ih]
      by_cases hm : k ∈ List.map (Prod.fst (β := β)) rest <;>
        simp [keysOf, hm, Ne.symm h]

theorem lookupKey_upsertMax (l : List (String × Nat)) (id k : String) (v : Nat) :
    lookupKey (VectorClock.upsertMax l id v) k =
      if id = k then some (max ((lookupKey l id).getD 0) v) else lookupKey l k := by
  induction l with
  | nil =>
    by_cases h : id = k <;> simp [VectorClock.upsertMax, lookupKey, h]
  | cons p rest ih =>
    by_cases hp : p.1 = id
    · subst hp
      by_cases h : p.1 = k <;> simp [VectorClock.upsertMax, lookupKey, h]
    · simp only [VectorClock.upsertMax, hp, if_false]
      by_cases h : p.1 = k
      · have hik : ¬ id = k := fun he => hp (h.trans he.symm)
        simp [lookupKey, h, hik]
      · simp [lookupKey, h, hp, ih]

theorem keysOf_upsertMax (l : List (String × Nat)) (id : String) (v : Nat) :
    keysOf (VectorClock.upsertMax l id v) =
      if id ∈ keysOf l then keysOf l else keysOf l ++ [id] := by
  induction l with
  | nil => simp [VectorClock.upsertMax, keysOf]
  | cons p rest ih =>
    by_cases hp : p.1 = id
    · simp [VectorClock.upsertMax, keysOf, hp]
    · simp only [VectorClock.upsertMax, hp, if_false, keysOf, List.map_cons] at ih ⊢
      rw [ih]
      by_cases hm : id ∈ List.map (Prod.fst (β := Nat)) rest <;>
        simp [keysOf, hm, Ne.symm hp]

theorem lookupKey_mergeList (b a : List (String × Nat)) (hb : (keysOf b).Nodup) (k : String) :
    lookupKey (VectorClock.mergeList a b) k =
      match lookupKey b k with
      | none => lookupKey a k
      | some v => some (max ((lookupKey a k).getD 0) v) := by
  induction b generalizing a with
  | nil => simp [VectorClock.mergeList, lookupKey]
  | cons p rest ih =>
    simp only [keysOf, List.map_cons, List.nodup_cons] at hb
    obtain ⟨hnm, hnd⟩ := hb
    simp only [VectorClock.mergeList]
    rw [ih _ hnd]
    by_cases h : p.1 = k
    · subst h
      rw [lookupKey_eq_none_of_not_mem rest p.1 (by simpa [keysOf] using hnm)]
      simp [lookupKey, lookupKey_upsertMax]
    · simp only [lookupKey, h, if_false]
      rcases hr : lookupKey rest k with _ | w <;>
        simp [lookupKey_upsertMax, h]


theorem get_mergeList_left (b a : List (String × Nat)) (k : String) :
    (lookupKey a k).getD 0 ≤ (lookupKey (VectorClock.mergeList a b) k).getD 0 := by
  induction b generalizing a with
  | nil => simp [VectorClock.mergeList]
  | cons p rest ih =>
    simp only [VectorClock.mergeList]
    refine le_trans ?_ (ih (VectorClock.upsertMax a p.1 p.2))
    rw [lookupKey_upsertMax]
    by_cases h : p.1 = k <;> simp [h, le_max_left]

theorem get_mergeList_right (b a : List (String × Nat)) (k : String) :
    (lookupKey b k).getD 0 ≤ (lookupKey (VectorClock.mergeList a b) k).getD 0 := by
  induction b generalizing a with
  | nil => simp [lookupKey]
  | cons p rest ih =>
    simp only [VectorClock.mergeList, lookupKey]
    by_cases h : p.1 = k
    · refine le_trans ?_ (get_mergeList_left rest (VectorClock.upsertMax a p.1 p.2) k)
      rw [lookupKey_upsertMax]
      simp [h, le_max_right]
    · simpa [h] using ih (VectorClock.upsertMax a p.1 p.2)

theorem keysOf_mergeList_nodup (b a : List (String × Nat)) (ha : (keysOf a).Nodup) :
    (keysOf (VectorClock.mergeList a b)).Nodup := by
  induction b generalizing a with
  | nil => exact ha
  | cons p rest ih =>
    simp only [VectorClock.mergeList]
    refine ih _ ?_
    rw [keysOf_upsertMax]
    by_cases h : p.1 ∈ keysOf a
    · simpa [h] using ha
    · simp only [h, if_false]
      rw [List.nodup_append]
      exact ⟨ha, List.nodup_singleton _, fun x hx hy => h ((List.mem_singleton.1 hy) ▸ hx)⟩

theorem lookupKey_eq_of_mem {β : Type u} {l : List (String × β)} (hl : (keysOf l).Nodup)
    {p : String × β} (hp : p ∈ l) : lookupKey l p.1 = some p.2 := by
  induction l with
  | nil => cases hp
  | cons q rest ih =>
    simp only [keysOf, List.map_cons, List.nodup_cons] at hl
    rw [List.mem_cons] at hp
    rcases hp with h | h
    · subst h; simp [lookupKey]
    · have hne : ¬ q.1 = p.1 := fun he => hl.1 (he ▸ List.mem_map_of_mem Prod.fst h)
      simp only [lookupKey, hne, if_false]
      exact ih hl.2 h

theorem mem_of_lookupKey_eq {β : Type u} {l : List (String × β)} {k : String} {v : β}
    (h : lookupKey l k = some v) : (k, v) ∈ l := by
  induction l with
  | nil => simp [lookupKey] at h
  | cons q rest ih =>
    by_cases hq : q.1 = k
    · simp only [lookupKey, hq, if_true] at h
      subst hq
      cases h
      rw [List.mem_cons]
      exact Or.inl rfl
    · simp only [lookupKey, hq, if_false] at h
      rw [List.mem_cons]
      exact Or.inr (ih h)

namespace VectorClock

theorem find_mergeList (a b : VectorClock) (hb : b.WF) (k : String) :
    (a.merge b).find k =
      match b.find k with
      | none => a.find k
      | some v => some (max (a.get k) v) :=
  lookupKey_mergeList b.entries a.entries hb k

theorem get_merge (a b : VectorClock) (hb : b.WF) (k : String) :
    (a.merge b).get k = max (a.get k) (b.get k) := by
  unfold get
  rw [find_mergeList a b hb]
  rcases h : b.find k with _ | v <;> simp [h, get]

theorem get_le_merge_left (a b : VectorClock) (k : String) : a.get k ≤ (a.merge b).get k :=
  get_mergeList_left b.entries a.entries k

theorem get_le_merge_right (a b : VectorClock) (k : String) : b.get k ≤ (a.merge b).get k :=
  get_mergeList_right b.entries a.entries k

theorem WF_merge (a b : VectorClock) (ha : a.WF) : (a.merge b).WF :=
  keysOf_mergeList_nodup b.entries a.entries ha

theorem find_eq_of_mem {a : VectorClock} (ha : a.WF) {p : String × Nat}
    (hp : p ∈ a.entries) : a.find p.1 = some p.2 :=
  lookupKey_eq_of_mem ha hp

theorem mem_of_find_eq {a : VectorClock} {k : String} {v : Nat}
    (h : a.find k = some v) : (k, v) ∈ a.entries :=
  mem_of_lookupKey_eq h

theorem get_eq_of_find {a : VectorClock} {k : String} {v : Nat}
    (h : a.find k = some v) : a.get k = v := by
  simp [get, h]

theorem get_eq_zero_of_find_none {a : VectorClock} {k : String}
    (h : a.find k = none) : a.get k = 0 := by
  simp [get, h]

theorem dominatesB_sound {a b : VectorClock} (h : a.dominatesB b = true) : a.Dominates b := by
  intro k
  unfold dominatesB at h
  rw [List.all_eq_true] at h
  rcases hf : a.find k with _ | v
  · simp [get, hf]
  · have hm := h _ (mem_of_find_eq hf)
    rw [decide_eq_true_iff] at hm
    rw [get_eq_of_find hf]
    exact hm

/-- Characterization of happened_before on well-formed clocks: pointwise
less-or-equal with at least one strict inequality. -/
theorem happened_before_iff {a b : VectorClock} (ha : a.WF) (hb : b.WF) :
    a.happened_before b = true ↔ a.Dominates b ∧ ∃ k, a.get k < b.get k := by
  unfold happened_before
  rw [Bool.and_eq_true, Bool.or_eq_true, List.all_eq_true, List.any_eq_true, List.any_eq_true]
  constructor
  · rintro ⟨hle, hstrict⟩
    have hdom : a.Dominates b := by
      intro k
      rcases hf : a.find k with _ | v
      · simp [get, hf]
      · have hm := hle _ (mem_of_find_eq hf)
        rw [decide_eq_true_iff] at hm
        rw [get_eq_of_find hf]
        exact hm
    refine ⟨hdom, ?_⟩
    rcases hstrict with ⟨p, hp, hlt⟩ | ⟨p, hp, hcond⟩
    · refine ⟨p.1, ?_⟩
      rw [get_eq_of_find (find_eq_of_mem ha hp)]
      exact of_decide_eq_true hlt
    · rw [Bool.and_eq_true] at hcond
      refine ⟨p.1, ?_⟩
      have h0 : a.find p.1 = none := by
        rcases hf : a.find p.1 with _ | v
        · rfl
        · rw [hf] at hcond; simp at hcond
      rw [get_eq_zero_of_find_none h0, get_eq_of_find (find_eq_of_mem hb hp)]
      exact of_decide_eq_true hcond.2
  · rintro ⟨hdom, k, hk⟩
    constructor
    · intro p hp
      rw [decide_eq_true_iff]
      have := hdom p.1
      rwa [get_eq_of_find (find_eq_of_mem ha hp)] at this
    · have hbk : 0 < b.get k := lt_of_le_of_lt (Nat.zero_le _) hk
      have hbfind : ∃ v, b.find k = some v := by
        rcases hf : b.find k with _ | v
        · rw [get_eq_zero_of_find_none hf] at hbk; omega
        · exact ⟨v, rfl⟩
      rcases hbfind with ⟨v, hv⟩
      rcases hf : a.find k with _ | w
      · right
        refine ⟨(k, v), mem_of_find_eq hv, ?_⟩
        have hgv : b.get k = v := get_eq_of_find hv
        have hga : a.get k = 0 := get_eq_zero_of_find_none hf
        simp only [hf, Option.isNone_none, Bool.true_and, decide_eq_true_iff]
        omega
      · left
        refine ⟨(k, w), mem_of_find_eq hf, ?_⟩
        rw [decide_eq_true_iff]
        have hga : a.get k = w := get_eq_of_find hf
        show w < b.get k
        omega

/-- If the clocks of q and e are sandwiched (e below some middle clock that is
below q pointwise), then q did not happen before e. -/
theorem happened_before_eq_false_of_sandwich {q e m : VectorClock} (hq : q.WF) (he : e.WF)
    (h1 : e.Dominates m) (h2 : m.Dominates q) : q.happened_before e = false := by
  by_contra hcon
  rw [Bool.not_eq_false] at hcon
  rcases (happened_before_iff hq he).1 hcon with ⟨hdom, k, hk⟩
  have := h1 k
  have := h2 k
  have := hdom k
  omega

end VectorClock

theorem mem_revInsert {α : Type u} (cmp : α → α → Ordering) (l : List α) (x y : α) :
    y ∈ revInsert cmp l x ↔ y = x ∨ y ∈ l := by
  induction l with
  | nil => simp [revInsert]
  | cons z zs ih =>
    by_cases h : cmp z x = Ordering.gt <;> simp [revInsert, h, ih] <;> tauto

theorem mem_foldl_revInsert {α : Type u} (cmp : α → α → Ordering) (l : List α) :
    ∀ (acc : List α) (y : α), y ∈ l.foldl (revInsert cmp) acc ↔ y ∈ acc ∨ y ∈ l := by
  induction l with
  | nil => simp
  | cons z zs ih =>
    intro acc y
    simp only [List.foldl_cons, ih, mem_revInsert, List.mem_cons]
    tauto

theorem mem_sortByRust {α : Type u} (cmp : α → α → Ordering) (l : List α) (y : α) :
    y ∈ sortByRust cmp l ↔ y ∈ l := by
  simp [sortByRust, mem_foldl_revInsert]

theorem mem_importFold (l : List ExperienceEvent) :
    ∀ (es : List ExperienceEvent) (s : Finset String) (x : ExperienceEvent),
      x ∈ (l.foldl ExperienceLog.importStep (es, s)).1 → x ∈ es ∨ x ∈ l := by
  induction l with
  | nil => intro es s x h; exact Or.inl h
  | cons e rest ih =>
    intro es s x h
    simp only [List.foldl_cons] at h
    unfold ExperienceLog.importStep at h
    by_cases hm : e.id ∈ s
    · simp only [hm, if_true] at h
      rcases ih es s x h with h' | h'
      · exact Or.inl h'
      · exact Or.inr (List.mem_cons_of_mem _ h')
    · simp only [hm, if_false] at h
      rcases ih _ _ x h with h' | h'
      · rcases List.mem_append.1 h' with h'' | h''
        · exact Or.inl h''
        · rcases List.mem_singleton.1 h'' with rfl
          exact Or.inr (List.mem_cons_self _ _)
      · exact Or.inr (List.mem_cons_of_mem _ h')

theorem lookupKey_removeKey_self {β : Type u} {l : List (String × β)}
    (hl : (keysOf l).Nodup) (k : String) : lookupKey (removeKey l k) k = none := by
  induction l with
  | nil => rfl
  | cons p rest ih =>
    simp only [keysOf, List.map_cons, List.nodup_cons] at hl
    by_cases h : p.1 = k
    · simp only [removeKey, h, if_true]
      exact lookupKey_eq_none_of_not_mem rest k (h ▸ hl.1)
    · simp only [removeKey, h, if_false, lookupKey]
      exact ih hl.2

theorem lookupKey_updatePeer (peers : List (String × PeerState)) (id : String)
    (f : PeerState → PeerState) (pid : String) :
    lookupKey (GossipProtocol.updatePeer peers id f) pid =
      if id = pid then (lookupKey peers id).map f else lookupKey peers pid := by
  unfold GossipProtocol.updatePeer
  by_cases he : id = pid
  · subst he
    rcases h : lookupKey peers id with _ | p
    · simp [h]
    · simp [h, lookupKey_replaceOrAppend]
  · rcases h : lookupKey peers id with _ | p
    · simp [h, he]
    · simp [h, he, lookupKey_replaceOrAppend]

theorem vcEqB_sound {a b : VectorClock} (h : vcEqB a b = true) (k : String) :
    a.get k = b.get k := by
  unfold vcEqB at h
  rw [List.all_eq_true] at h
  by_cases hka : k ∈ keysOf a.entries
  · have := h k (List.mem_append.2 (Or.inl hka))
    rw [beq_iff_eq] at this
    simp [VectorClock.get, this]
  · by_cases hkb : k ∈ keysOf b.entries
    · have := h k (List.mem_append.2 (Or.inr hkb))
      rw [beq_iff_eq] at this
      simp [VectorClock.get, this]
    · have ha := lookupKey_eq_none_of_not_mem a.entries k hka
      have hb := lookupKey_eq_none_of_not_mem b.entries k hkb
      simp [VectorClock.get, VectorClock.find, ha, hb]

theorem logOkB_sound {l : ExperienceLog} (h : l.logOkB = true) :
    ∀ e ∈ l.events, e.vector_clock.WF ∧ VectorClock.Dominates e.vector_clock l.clock := by
  intro e he
  unfold ExperienceLog.logOkB at h
  rw [List.all_eq_true] at h
  have := h e he
  rw [Bool.and_eq_true, decide_eq_true_iff] at this
  exact ⟨this.1, VectorClock.dominatesB_sound this.2⟩

theorem gossipPushes_eq (g : GossipProtocol) (ts : List PeerState) :
    GossipProtocol.gossipPushes g ts =
      (ts.filter (fun q => !(g.state.delta_since q.last_clock).is_empty)).map
        (fun q => (q.address,
          GossipMessage.Push g.instance_id (g.state.delta_since q.last_clock))) := by
  unfold GossipProtocol.gossipPushes
  suffices h : ∀ acc, ts.foldl (GossipProtocol.pushStep g) acc =
      acc ++ (ts.filter (fun q => !(g.state.delta_since q.last_clock).is_empty)).map
        (fun q => (q.address,
          GossipMessage.Push g.instance_id (g.state.delta_since q.last_clock))) by
    simpa using h []
  induction ts with
  | nil => intro acc; simp
  | cons t rest ih =>
    intro acc
    rw [List.foldl_cons, List.filter_cons, ih]
    by_cases h : (g.state.delta_since t.last_clock).is_empty = true <;>
      simp [GossipProtocol.pushStep, h]

theorem filter_erase_of_false {α : Type u} [DecidableEq α] (f : α → Bool) (p : α)
    (hp : f p = false) (l : List α) : (l.erase p).filter f = l.filter f := by
  induction l with
  | nil => rfl
  | cons a rest ih =>
    by_cases h : a = p
    · subst h
      rw [List.erase_cons_head, List.filter_cons, hp]
      simp
    · rw [List.erase_cons_tail (by simp [h]), List.filter_cons, List.filter_cons, ih]

-- =============================================================================
-- Claim theorems
-- =============================================================================

/-- C6: appending an event whose id is already in the seen-id set returns
false and leaves the event sequence, its length, the seen-id set and the
aggregate clock unchanged; appending an event with a fresh id returns true. -/
theorem C6_append_duplicate_noop :
    ∀ (log : ExperienceLog) (e : ExperienceEvent),
      (e.id ∈ log.seen_ids →
        log.append e = (log, false) ∧
        (log.append e).1.events = log.events ∧
        (log.append e).1.len = log.len ∧
        (log.append e).1.seen_ids = log.seen_ids ∧
        (log.append e).1.clock = log.clock) ∧
      (e.id ∉ log.seen_ids → (log.append e).2 = true) := by
  intro log e
  constructor
  · intro h
    simp [ExperienceLog.append, h, ExperienceLog.len]
  · intro h
    simp [ExperienceLog.append, h]

theorem C6_append_duplicate_noop_witness :
    (c1e1.id ∈ ((ExperienceLog.new.append c1e1).1).seen_ids ∧
      (ExperienceLog.new.append c1e1).1.append c1e1 = ((ExperienceLog.new.append c1e1).1, false)) ∧
    (c1e3.id ∉ ((ExperienceLog.new.append c1e1).1).seen_ids ∧
      ((ExperienceLog.new.append c1e1).1.append c1e3).2 = true) :=
  ⟨⟨by decide, ((C6_append_duplicate_noop _ c1e1).1 (by decide)).1⟩,
   ⟨by decide, (C6_append_duplicate_noop _ c1e3).2 (by decide)⟩⟩

/-- C10: delta_since always returns an empty state_updates map, and
apply_delta neither reads state_updates nor touches the metrics or metadata
maps (nor the instance id or last_sync field). -/
theorem C10_delta_never_carries_state_updates :
    ∀ (s : SyncState) (c : VectorClock) (d : DeltaState) (su : List (String × String)),
      (s.delta_since c).state_updates = [] ∧
      s.apply_delta d = s.apply_delta { d with state_updates := su } ∧
      (s.apply_delta d).metrics = s.metrics ∧
      (s.apply_delta d).metadata = s.metadata ∧
      (s.apply_delta d).instance_id = s.instance_id ∧
      (s.apply_delta d).last_sync = s.last_sync :=
  fun _ _ _ _ => ⟨rfl, rfl, rfl, rfl, rfl, rfl⟩

/-- C9: handling a Pull message returns Some PullResponse carrying exactly
delta_since(since_clock), and mutates nothing except marking the sender's
peer record as seen: the SyncState and every other peer record and field of
the protocol are unchanged. -/
theorem C9_pull_is_read_only :
    ∀ (g : GossipProtocol) (now : Nat) (from_address sender : String) (since : VectorClock),
      (g.handle_message now from_address (GossipMessage.Pull sender since)).2 =
        some (GossipMessage.PullResponse g.instance_id (g.state.delta_since since)) ∧
      (g.handle_message now from_address (GossipMessage.Pull sender since)).1.state = g.state ∧
      (g.handle_message now from_address (GossipMessage.Pull sender since)).1.instance_id =
        g.instance_id ∧
      (g.handle_message now from_address (GossipMessage.Pull sender since)).1.config = g.config ∧
      (g.handle_message now from_address (GossipMessage.Pull sender since)).1.pending_messages =
        g.pending_messages ∧
      (g.handle_message now from_address (GossipMessage.Pull sender since)).1.last_gossip =
        g.last_gossip ∧
      (∀ pid, pid ≠ sender →
        lookupKey (g.handle_message now from_address
            (GossipMessage.Pull sender since)).1.peers pid = lookupKey g.peers pid) ∧
      lookupKey (g.handle_message now from_address
          (GossipMessage.Pull sender since)).1.peers sender =
        (lookupKey g.peers sender).map (fun p => p.mark_seen now) := by
  intro g now fa sender since
  refine ⟨rfl, rfl, rfl, rfl, rfl, rfl, ?_, ?_⟩
  · intro pid hpid
    show lookupKey (GossipProtocol.updatePeer g.peers sender (fun p => p.mark_seen now)) pid = _
    rw [lookupKey_updatePeer]
    simp [Ne.symm hpid]
  · show lookupKey (GossipProtocol.updatePeer g.peers sender (fun p => p.mark_seen now)) sender = _
    rw [lookupKey_updatePeer]
    simp

theorem C9_pull_is_read_only_witness :
    ("C" ≠ "B" ∧
      lookupKey (c9g.handle_message 7 "addr:9" (GossipMessage.Pull "B" w2c)).1.peers "C" =
        lookupKey c9g.peers "C") ∧
    (c9g.handle_message 7 "addr:9" (GossipMessage.Pull "B" w2c)).1.state = c9g.state :=
  ⟨⟨by decide, (C9_pull_is_read_only c9g 7 "addr:9" "B" w2c).2.2.2.2.2.2.1 "C" (by decide)⟩,
   (C9_pull_is_read_only c9g 7 "addr:9" "B" w2c).2.1⟩

/-- C2: the vector clock merge is commutative, associative and idempotent
up to map equality, for well-formed (duplicate-free) clocks. -/
theorem C2_clock_merge_comm_assoc_idem :
    ∀ (a b c : VectorClock), a.WF → b.WF → c.WF →
      VectorClock.EqMap (a.merged b) (b.merged a) ∧
      VectorClock.EqMap ((a.merged b).merged c) (a.merged (b.merged c)) ∧
      VectorClock.EqMap (a.merged a) a := by
  intro a b c ha hb hc
  refine ⟨?_, ?_, ?_⟩
  · intro k
    simp only [VectorClock.merged]
    rw [VectorClock.find_mergeList a b hb, VectorClock.find_mergeList b a ha]
    rcases hfa : a.find k with _ | x <;> rcases hfb : b.find k with _ | y <;>
      simp [VectorClock.get, hfa, hfb, Nat.max_comm]
  · intro k
    simp only [VectorClock.merged]
    have hab : ((a.merge b).find k).getD 0 = max ((a.find k).getD 0) ((b.find k).getD 0) :=
      VectorClock.get_merge a b hb k
    rw [VectorClock.find_mergeList _ c hc,
        VectorClock.find_mergeList a _ (VectorClock.WF_merge b c hb),
        VectorClock.find_mergeList a b hb, VectorClock.find_mergeList b c hc]
    rcases hfa : a.find k with _ | x <;> rcases hfb : b.find k with _ | y <;>
      rcases hfc : c.find k with _ | z <;>
      simp [VectorClock.get, hfa, hfb, hfc, hab, Nat.max_assoc]
  · intro k
    simp only [VectorClock.merged]
    rw [VectorClock.find_mergeList a a ha]
    rcases hfa : a.find k with _ | x <;> simp [VectorClock.get, hfa]

theorem C2_clock_merge_comm_assoc_idem_witness :
    (w2a.WF ∧ w2b.WF ∧ w2c.WF) ∧
    VectorClock.EqMap (w2a.merged w2b) (w2b.merged w2a) ∧
    VectorClock.EqMap ((w2a.merged w2b).merged w2c) (w2a.merged (w2b.merged w2c)) ∧
    VectorClock.EqMap (w2a.merged w2a) w2a :=
  ⟨⟨by decide, by decide, by decide⟩,
   C2_clock_merge_comm_assoc_idem w2a w2b w2c (by decide) (by decide) (by decide)⟩

/-- C4: LWWMap::set and LWWMap::merge apply the same last-writer-wins rule:
set k v t w is exactly merging in a singleton map with that entry, and on
both paths the incoming entry wins iff its timestamp is strictly greater or
equal with a strictly greater writer id. -/
theorem C4_set_matches_merge_singleton :
    ∀ (T : Type) (m : LWWMap T) (k : String) (v : T) (t : Int) (w : String),
      m.set k v t w = m.merge (LWWMap.singleton k v t w) ∧
      (∀ old, lookupKey m.entries k = some old →
        lookupKey (m.set k v t w).entries k =
          some (if t > old.timestamp ∨
                  (t = old.timestamp ∧ compare old.writer w = Ordering.lt)
                then LWWEntry.mk v t w else old)) ∧
      (lookupKey m.entries k = none →
        lookupKey (m.set k v t w).entries k = some (LWWEntry.mk v t w)) := by
  intro T m k v t w
  obtain ⟨es⟩ := m
  refine ⟨?_, ?_, ?_⟩
  · show LWWMap.set ⟨es⟩ k v t w = LWWMap.merge ⟨es⟩ (LWWMap.singleton k v t w)
    unfold LWWMap.merge LWWMap.singleton
    simp only [List.foldl_cons, List.foldl_nil]
    unfold LWWMap.mergeStep LWWMap.set
    rcases h : lookupKey es k with _ | ex
    · simp only [h]
    · simp only [h]
      rcases lt_trichotomy ex.timestamp t with h1 | h1 | h1
      · rw [if_neg (by omega), if_neg (fun hB => by omega), if_pos (Or.inl h1)]
      · rw [if_neg (by omega)]
        by_cases hw : compare ex.writer w = Ordering.lt
        · rw [if_neg (fun hB => hB.2 hw), if_pos (Or.inr ⟨h1.symm, hw⟩)]
        · rw [if_pos ⟨h1, hw⟩,
              if_neg (fun hC => by
                rcases hC with hc | ⟨_, hc⟩
                · omega
                · exact hw hc)]
      · rw [if_pos h1, if_neg (fun hC => by rcases hC with hc | ⟨hc, _⟩ <;> omega)]
  · intro old hold
    show lookupKey (LWWMap.set ⟨es⟩ k v t w).entries k = _
    unfold LWWMap.set
    simp only [hold]
    rcases lt_trichotomy old.timestamp t with h1 | h1 | h1
    · rw [if_neg (by omega), if_neg (fun hB => by omega),
          if_pos (Or.inl h1), lookupKey_replaceOrAppend, if_pos rfl]
    · by_cases hw : compare old.writer w = Ordering.lt
      · rw [if_neg (by omega), if_neg (fun hB => hB.2 hw),
            if_pos (Or.inr ⟨h1.symm, hw⟩), lookupKey_replaceOrAppend, if_pos rfl]
      · rw [if_neg (by omega), if_pos ⟨h1, hw⟩,
            if_neg (fun hC => by
              rcases hC with hc | ⟨_, hc⟩
              · omega
              · exact hw hc)]
        exact hold
    · rw [if_pos h1, if_neg (fun hC => by rcases hC with hc | ⟨hc, _⟩ <;> omega)]
      exact hold
  · intro hnone
    show lookupKey (LWWMap.set ⟨es⟩ k v t w).entries k = _
    unfold LWWMap.set
    simp only [hnone]
    rw [lookupKey_replaceOrAppend, if_pos rfl]

theorem C4_set_matches_merge_singleton_witness :
    (lookupKey c8map.entries "k" = some (⟨"old", 1, "w1"⟩ : LWWEntry String) ∧
      lookupKey (c8map.set "k" "new" 2 "w2").entries "k" =
        some (if (2 : Int) > (1 : Int) ∨
                ((2 : Int) = (1 : Int) ∧ compare "w1" "w2" = Ordering.lt)
              then (⟨"new", 2, "w2"⟩ : LWWEntry String) else ⟨"old", 1, "w1"⟩)) ∧
    (lookupKey c8map.entries "zzz" = none ∧
      lookupKey (c8map.set "zzz" "x" 0 "w0").entries "zzz" =
        some (⟨"x", 0, "w0"⟩ : LWWEntry String)) :=
  ⟨⟨by decide,
    (C4_set_matches_merge_singleton String c8map "k" "new" 2 "w2").2.1
      (⟨"old", 1, "w1"⟩ : LWWEntry String) (by decide)⟩,
   ⟨by decide,
    (C4_set_matches_merge_singleton String c8map "zzz" "x" 0 "w0").2.2 (by decide)⟩⟩

/-- C8: LWWMap::remove deletes the key destructively, ignoring the supplied
timestamp and leaving no tombstone; consequently remove-then-merge and
merge-then-remove can disagree on the removed key, resurrecting the old
value when a stale copy is merged back in. -/
theorem C8_remove_is_destructive :
    (∀ (T : Type) (m : LWWMap T) (k : String) (t t' : Int), m.remove k t = m.remove k t') ∧
    (∀ (T : Type) (m : LWWMap T) (k : String) (t : Int),
      (keysOf m.entries).Nodup → (m.remove k t).get k = none) ∧
    ((c8map.remove "k" 5).merge c8map).get "k" = some "old" ∧
    ((c8map.merge c8map).remove "k" 5).get "k" = none ∧
    (c8map.remove "k" 5).merge c8map ≠ (c8map.merge c8map).remove "k" 5 := by
  refine ⟨fun T m k t t' => rfl, ?_, by decide, by decide, by decide⟩
  intro T m k t hnd
  show (LWWMap.get ⟨removeKey m.entries k⟩ k) = none
  unfold LWWMap.get
  simp [lookupKey_removeKey_self hnd]

theorem C8_remove_is_destructive_witness :
    (keysOf c8map.entries).Nodup ∧ (c8map.remove "k" 5).get "k" = none :=
  ⟨by decide, C8_remove_is_destructive.2.1 String c8map "k" 5 (by decide)⟩

/-- C5: a successful append leaves the aggregate clock dominating the new
event's clock, and every log reachable by append and merge operations keeps
the aggregate clock dominating the clock of every stored event. -/
theorem C5_aggregate_clock_dominates :
    (∀ (l : ExperienceLog) (e : ExperienceEvent), (l.append e).2 = true →
      VectorClock.Dominates e.vector_clock (l.append e).1.clock) ∧
    (∀ l, ExperienceLog.Reachable l → ExperienceLog.LogInv l) := by
  constructor
  · intro l e h
    unfold ExperienceLog.append at h ⊢
    by_cases hm : e.id ∈ l.seen_ids
    · simp [hm] at h
    · simp only [hm, if_false]
      intro k
      exact VectorClock.get_le_merge_right l.clock e.vector_clock k
  · intro l hr
    induction hr with
    | base =>
      intro e he
      exact absurd he (List.not_mem_nil e)
    | append l e _ ih =>
      intro e' he'
      unfold ExperienceLog.append at he' ⊢
      by_cases hm : e.id ∈ l.seen_ids
      · simp only [hm, if_true] at he' ⊢
        exact ih e' he'
      · simp only [hm, if_false] at he' ⊢
        rcases List.mem_append.1 he' with h' | h'
        · intro k
          exact le_trans (ih e' h' k) (VectorClock.get_le_merge_left l.clock e.vector_clock k)
        · rcases List.mem_singleton.1 h' with rfl
          intro k
          exact VectorClock.get_le_merge_right _ _ k
    | merge l₁ l₂ _ _ ih1 ih2 =>
      intro e he
      have he' : e ∈ sortByRust eventCmp
          ((l₂.events.foldl ExperienceLog.importStep (l₁.events, l₁.seen_ids)).1) := he
      rw [mem_sortByRust] at he'
      have hclock : (l₁.merge l₂).clock = l₁.clock.merge l₂.clock := rfl
      rw [hclock]
      rcases mem_importFold l₂.events l₁.events l₁.seen_ids e he' with h' | h'
      · intro k
        exact le_trans (ih1 e h' k) (VectorClock.get_le_merge_left l₁.clock l₂.clock k)
      · intro k
        exact le_trans (ih2 e h' k) (VectorClock.get_le_merge_right l₁.clock l₂.clock k)

theorem C5_aggregate_clock_dominates_witness :
    ((ExperienceLog.new.append c1e1).2 = true ∧
      VectorClock.Dominates c1e1.vector_clock (ExperienceLog.new.append c1e1).1.clock) ∧
    ExperienceLog.LogInv c1log1 :=
  ⟨⟨by decide, C5_aggregate_clock_dominates.1 ExperienceLog.new c1e1 (by decide)⟩,
   C5_aggregate_clock_dominates.2 c1log1
     (ExperienceLog.Reachable.append _ c1e2
       (ExperienceLog.Reachable.append _ c1e1 ExperienceLog.Reachable.base))⟩

/-- C7: in a gossip round, a selected target peer whose recorded clock
dominates the local aggregate clock (in a state whose log satisfies the
aggregate-clock invariant with well-formed clocks) receives no Push message:
the delta computed against its clock is empty, and dropping the peer from
the target list leaves the push messages unchanged. -/
theorem C7_dominated_peer_gets_no_push :
    ∀ (g : GossipProtocol) (p : PeerState),
      p ∈ g.select_gossip_targets →
      p.last_clock.WF →
      VectorClock.dominatesB g.state.log.clock p.last_clock = true →
      g.state.log.logOkB = true →
      (g.state.delta_since p.last_clock).is_empty = true ∧
      GossipProtocol.gossipPushes g g.select_gossip_targets =
        GossipProtocol.gossipPushes g (g.select_gossip_targets.erase p) ∧
      (∀ now, (g.initiate_gossip now).2 =
        GossipProtocol.gossipPushes g g.select_gossip_targets ++ g.gossipHeartbeats) := by
  intro g p _hmem hwf hdom hok
  have hdomP : VectorClock.Dominates g.state.log.clock p.last_clock :=
    VectorClock.dominatesB_sound hdom
  have hnil : g.state.log.events_since p.last_clock = [] := by
    unfold ExperienceLog.events_since
    apply List.filter_eq_nil_iff.2
    intro e he
    rcases logOkB_sound hok e he with ⟨hewf, hedom⟩
    rw [VectorClock.happened_before_eq_false_of_sandwich hwf hewf hedom hdomP]
    simp
  have hempty : (g.state.delta_since p.last_clock).is_empty = true := by
    show ((g.state.log.events_since p.last_clock).isEmpty &&
      (List.isEmpty [])) = true
    rw [hnil]
    rfl
  refine ⟨hempty, ?_, fun now => rfl⟩
  rw [gossipPushes_eq, gossipPushes_eq,
      filter_erase_of_false (fun q => !(g.state.delta_since q.last_clock).is_empty) p
        (by simp only [hempty, Bool.not_true])]

theorem C7_dominated_peer_gets_no_push_witness :
    (c7peer ∈ c7g.select_gossip_targets ∧
      c7peer.last_clock.WF ∧
      VectorClock.dominatesB c7g.state.log.clock c7peer.last_clock = true ∧
      c7g.state.log.logOkB = true) ∧
    (c7g.state.delta_since c7peer.last_clock).is_empty = true :=
  ⟨⟨by decide, by decide, by decide, by decide⟩,
   (C7_dominated_peer_gets_no_push c7g c7peer (by decide) (by decide) (by decide)
     (by decide)).1⟩

/-- C1 fails on the code: with c1log1 = {c1e1, c1e2} and c1log2 = {c1e3},
both merge directions contain the same id set but in different sequences,
and no ordering of these three events at all can satisfy the claimed total
order (causal order plus lexicographic-id tie-break), because the merge
comparator is cyclic on them. -/
theorem C1_merge_order_dependent :
    (c1log1.merge c1log2).events.map ExperienceEvent.id = ["z", "a", "m"] ∧
    (c1log2.merge c1log1).events.map ExperienceEvent.id = ["m", "z", "a"] ∧
    (c1log1.merge c1log2).seen_ids = (c1log2.merge c1log1).seen_ids ∧
    (c1log1.merge c1log2).events ≠ (c1log2.merge c1log1).events ∧
    (∀ l : List ExperienceEvent,
      c1e1 ∈ l → c1e2 ∈ l → c1e3 ∈ l → claimOrderedB l = false) := by
  refine ⟨by decide, by decide, by decide, by decide, ?_⟩
  intro l h1 h2 h3
  induction l with
  | nil => exact absurd h1 (List.not_mem_nil c1e1)
  | cons x rest ih =>
    by_cases hx1 : x = c1e1
    · have h3' : c1e3 ∈ rest := by
        rcases List.mem_cons.1 h3 with h | h
        · exact absurd (h.trans hx1) (by decide : ¬ c1e3 = c1e1)
        · exact h
      cases hall : rest.all (claimPairOk x)
      · simp [claimOrderedB, hall]
      · exfalso
        have hp := List.all_eq_true.1 hall c1e3 h3'
        rw [hx1] at hp
        exact Bool.false_ne_true ((by decide : claimPairOk c1e1 c1e3 = false) ▸ hp)
    · by_cases hx2 : x = c1e2
      · have h1' : c1e1 ∈ rest := by
          rcases List.mem_cons.1 h1 with h | h
          · exact absurd (h.trans hx2) (by decide : ¬ c1e1 = c1e2)
          · exact h
        cases hall : rest.all (claimPairOk x)
        · simp [claimOrderedB, hall]
        · exfalso
          have hp := List.all_eq_true.1 hall c1e1 h1'
          rw [hx2] at hp
          exact Bool.false_ne_true ((by decide : claimPairOk c1e2 c1e1 = false) ▸ hp)
      · by_cases hx3 : x = c1e3
        · have h2' : c1e2 ∈ rest := by
            rcases List.mem_cons.1 h2 with h | h
            · exact absurd (h.trans hx3) (by decide : ¬ c1e2 = c1e3)
            · exact h
          cases hall : rest.all (claimPairOk x)
          · simp [claimOrderedB, hall]
          · exfalso
            have hp := List.all_eq_true.1 hall c1e2 h2'
            rw [hx3] at hp
            exact Bool.false_ne_true ((by decide : claimPairOk c1e3 c1e2 = false) ▸ hp)
        · have h1' : c1e1 ∈ rest := by
            rcases List.mem_cons.1 h1 with h | h
            · exact absurd h.symm hx1
            · exact h
          have h2' : c1e2 ∈ rest := by
            rcases List.mem_cons.1 h2 with h | h
            · exact absurd h.symm hx2
            · exact h
          have h3' : c1e3 ∈ rest := by
            rcases List.mem_cons.1 h3 with h | h
            · exact absurd h.symm hx3
            · exact h
          simp [claimOrderedB, ih h1' h2' h3']

theorem C1_merge_order_dependent_witness :
    (c1e1 ∈ [c1e1, c1e2, c1e3] ∧ c1e2 ∈ [c1e1, c1e2, c1e3] ∧ c1e3 ∈ [c1e1, c1e2, c1e3]) ∧
    claimOrderedB [c1e1, c1e2, c1e3] = false :=
  ⟨⟨by decide, by decide, by decide⟩,
   C1_merge_order_dependent.2.2.2.2 [c1e1, c1e2, c1e3] (by decide) (by decide) (by decide)⟩

/-- C3 fails on the code: events_since keeps only events strictly causally
after the given clock, so an event concurrent with it — which is not
causally-before-or-equal to it, and which the claim says must be returned —
is dropped. -/
theorem C3_counterexample_concurrent_event_dropped :
    c3log.events_since c3since = [] ∧
    events_since_claim c3log c3since = [c3e] ∧
    c3log.events_since c3since ≠ events_since_claim c3log c3since := by
  refine ⟨by decide, by decide, by decide⟩

/-- C3 amended: events_since returns exactly the events of the log whose
clock the given clock strictly happened-before; each such event is indeed
not causally-before-or-equal to the given clock, but concurrent events are
not returned. -/
theorem C3_events_since_strictly_after :
    ∀ (log : ExperienceLog) (c : VectorClock),
      (∀ e, e ∈ log.events_since c ↔
        (e ∈ log.events ∧ c.happened_before e.vector_clock = true)) ∧
      (c.WF → ∀ e, e ∈ log.events_since c → e.vector_clock.WF →
        (e.vector_clock.happened_before c || vcEqB e.vector_clock c) = false) := by
  intro log c
  constructor
  · intro e
    unfold ExperienceLog.events_since
    rw [List.mem_filter]
  · intro hcwf e he hewf
    have hhb : c.happened_before e.vector_clock = true := (List.mem_filter.1 he).2
    rcases (VectorClock.happened_before_iff hcwf hewf).1 hhb with ⟨hdom, k0, hk0⟩
    rw [Bool.or_eq_false_iff]
    constructor
    · by_contra hne
      rw [Bool.not_eq_false] at hne
      rcases (VectorClock.happened_before_iff hewf hcwf).1 hne with ⟨hdom', _⟩
      have h1 := hdom k0
      have h2 := hdom' k0
      omega
    · by_contra hne
      rw [Bool.not_eq_false] at hne
      have := vcEqB_sound hne k0
      omega

theorem C3_events_since_strictly_after_witness :
    (VectorClock.new.WF ∧ c3e ∈ c3log.events_since VectorClock.new ∧ c3e.vector_clock.WF) ∧
    (c3e.vector_clock.happened_before VectorClock.new ||
      vcEqB c3e.vector_clock VectorClock.new) = false :=
  ⟨⟨by decide, by decide, by decide⟩,
   (C3_events_since_strictly_after c3log VectorClock.new).2 (by decide) c3e (by decide)
     (by decide)⟩
